import Mathlib

/-!
Verification development for the erudify CLI core (src/bin/cli/model.rs and
src/bin/cli/convert.rs).  Strings are modelled as `List Char`; `chrono`
timestamps (`DateTime<Utc>`) and durations (`Duration`) are modelled as `Int`
counts of nanoseconds, which is exactly chrono's resolution; `HashMap`s are
modelled as association lists queried with `List.find?`.  External
collaborators (the dictionary, `prettify_pinyin::prettify`, Unicode character
classification) are parameters gathered in `AlignEnv`.  Rust panics and the
`Option`-returning failure paths become explicit `Except`/`Option` results.
-/

namespace Erudify

/-- Rust `String` / `&str`, modelled as a list of unicode scalar values. -/
abbrev Str := List Char

/-- Nanoseconds per second; `chrono::Duration::seconds 5` is `5 * nsecPerSec`. -/
def nsecPerSec : Int := 1000000000

/-- `Proficiency` from model.rs: `target_date` (dueAt) and `memory_strength`
(interval), both in nanoseconds. -/
structure Proficiency where
  target_date : Int
  memory_strength : Int
deriving DecidableEq

/-- `Proficiency::fail`: reset the interval to 5 seconds and reschedule. -/
def Proficiency.fail (_p : Proficiency) (a : Int) : Proficiency :=
  let ms : Int := 5 * nsecPerSec
  { target_date := a + ms, memory_strength := ms }

/-- `Proficiency::success`.  `self.memory_strength / 50` is chrono's
`Duration / i32`: because 50 divides 10^9, chrono's seconds/nanos split
division is exactly floor division (`Int.fdiv`) on the total nanosecond
count, for durations of either sign. -/
def Proficiency.success (p : Proficiency) (a : Int) : Proficiency :=
  let ms : Int :=
    if a < p.target_date then p.memory_strength + Int.fdiv p.memory_strength 50
    else p.memory_strength + p.memory_strength * 4
  { target_date := a + ms, memory_strength := ms }

/-- The `Proficiency` values reachable through the public operations:
first-encounter initialization (`UserModel::with_proficiency` inserts
`{target_date: now, memory_strength: 5s}`), `success` and `fail`. -/
inductive ReachableProf : Proficiency → Prop where
  | init (t : Int) : ReachableProf ⟨t, 5 * nsecPerSec⟩
  | step_success {p : Proficiency} (a : Int) :
      ReachableProf p → ReachableProf (p.success a)
  | step_fail {p : Proficiency} (a : Int) :
      ReachableProf p → ReachableProf (p.fail a)

/-- `Segment` from convert.rs. -/
structure Segment where
  chinese : Str
  pinyin : Str
deriving DecidableEq

/-- `Exercise` from convert.rs. -/
structure Exercise where
  segments : List Segment
  english : Str
deriving DecidableEq

/-- Helper for `dedupCons`: drop list elements equal to the previous kept
element, exactly like the tail processing of Rust's `Vec::dedup`. -/
def dedupConsAux {α : Type*} [DecidableEq α] (prev : α) : List α → List α
  | [] => []
  | y :: ys => if prev = y then dedupConsAux prev ys else y :: dedupConsAux y ys

/-- Rust `Vec::dedup`: remove *consecutive* repeated elements, keeping the
first element of each run. -/
def dedupCons {α : Type*} [DecidableEq α] : List α → List α
  | [] => []
  | x :: xs => x :: dedupConsAux x xs

/-- `Exercise::words`: texts of the segments with non-empty pinyin, then
`Vec::dedup` (adjacent duplicates only). -/
def Exercise.words (e : Exercise) : List Str :=
  dedupCons ((e.segments.filter (fun s => !s.pinyin.isEmpty)).map (fun s => s.chinese))

/-- Rust `Vec::<String>::join(" ")`: concatenation with a single space
between consecutive elements (empty elements included). -/
def joinSpace : List Str → Str
  | [] => []
  | [x] => x
  | x :: y :: xs => x ++ ' ' :: joinSpace (y :: xs)

/-- `Exercise::chinese`: concatenation of all segment texts. -/
def Exercise.chineseText (e : Exercise) : Str :=
  (e.segments.map (fun s => s.chinese)).flatten

/-- `Exercise::pinyin`: segment readings collected and joined with `" "`. -/
def Exercise.pinyin (e : Exercise) : Str :=
  joinSpace (e.segments.map (fun s => s.pinyin))

/-- `UserModel` from model.rs; the two `HashMap`s become association lists. -/
structure UserModel where
  seen_words : List (Str × Proficiency)
  seen_exercises : List (Exercise × Int)
deriving DecidableEq

/-- `UserModel::new`. -/
def UserModel.new : UserModel := ⟨[], []⟩

/-- `self.seen_words.get(word)`. -/
def UserModel.getWord (m : UserModel) (w : Str) : Option Proficiency :=
  (m.seen_words.find? (fun kv => kv.1 == w)).map (fun kv => kv.2)

/-- `self.seen_exercises.get(exercise)`. -/
def UserModel.getExercise (m : UserModel) (e : Exercise) : Option Int :=
  (m.seen_exercises.find? (fun kv => kv.1 == e)).map (fun kv => kv.2)

/-- `UserModel::with_proficiency`: the entry-or-insert idiom.  Returns the
(mutable) record for the word together with the updated model; on first
encounter inserts `{target_date: now, memory_strength: 5 seconds}`. -/
def UserModel.with_proficiency (m : UserModel) (w : Str) (now : Int) :
    Proficiency × UserModel :=
  match m.getWord w with
  | some p => (p, m)
  | none =>
    let p : Proficiency := ⟨now, 5 * nsecPerSec⟩
    (p, { m with seen_words := (w, p) :: m.seen_words })

/-- The `WordScore` enum local to `UserModel::next_word`. -/
inductive WordScore where
  | seenDue (diff : Int)
  | unseen (idx : Nat)
  | seenFuture (diff : Int)
deriving DecidableEq

/-- The order `derive(PartialOrd, Ord)` gives `WordScore`: variants in
declaration order first (`SeenDue < Unseen < SeenFuture`), then the field.
Encoded as a lexicographic pair (variant tag, field value). -/
def WordScore.key : WordScore → Lex (Nat × Int)
  | .seenDue d => toLex (0, d)
  | .unseen i => toLex (1, (i : Int))
  | .seenFuture d => toLex (2, d)

/-- The closure passed to `min_by_key` in `UserModel::next_word`. -/
def UserModel.wordScore (m : UserModel) (now : Int) (idx : Nat) (w : Str) :
    WordScore :=
  match m.getWord w with
  | some prof =>
    let diff := prof.target_date - now
    if diff ≤ 0 then .seenDue |diff| else .seenFuture diff
  | none => .unseen idx

/-- Rust `Iterator::min_by_key`: the minimum under `key`; when several
elements are equally minimal, the first one is returned. -/
def minByKey {α κ : Type*} [LinearOrder κ] (key : α → κ) : List α → Option α
  | [] => none
  | x :: xs =>
    match minByKey key xs with
    | none => some x
    | some m => if key m < key x then some m else some x

/-- `UserModel::next_word`.  The Rust code ends with
`.expect("word_list must not be empty")`; that precondition-violation panic
is modelled as `none`. -/
def UserModel.next_word (m : UserModel) (now : Int) (word_list : List Str) :
    Option Str :=
  (minByKey (fun p => (m.wordScore now p.1 p.2).key) word_list.enum).map
    (fun p => p.2)

/-- `ExerciseScore` from model.rs. -/
structure ExerciseScore where
  words_not_in_list : Nat
  words_in_list : Nat
  words_not_seen : Nat
  last_seen_date : Option Int
  future_words_count : Nat
deriving DecidableEq

/-- Rust's `Option<T>` order: `None < Some`, `Some` ordered by the value;
this is exactly the `WithBot` order. -/
def optKey : Option Int → WithBot Int
  | none => ⊥
  | some t => (t : WithBot Int)

/-- The order `derive(PartialOrd, Ord)` gives `ExerciseScore`: lexicographic
on the five fields in declaration order, encoded as nested lex pairs. -/
def ExerciseScore.key (s : ExerciseScore) :
    Lex (Nat × Lex (Nat × Lex (Nat × Lex (WithBot Int × Nat)))) :=
  toLex (s.words_not_in_list, toLex (s.words_in_list,
    toLex (s.words_not_seen, toLex (optKey s.last_seen_date, s.future_words_count))))

/-- `UserModel::score_exercise`.  The Rust `HashSet<&&String>` of future
words hashes and compares by string value, so its cardinality is the number
of distinct future words and membership is value membership in the filtered
list. -/
def UserModel.score_exercise (m : UserModel) (now : Int) (e : Exercise)
    (word_list : List Str) : ExerciseScore :=
  let ws := e.words
  let isFut : Str → Bool := fun w =>
    match m.getWord w with
    | some p => decide (now < p.target_date)
    | none => false
  let futureWords := (ws.filter isFut).dedup
  { words_not_in_list :=
      ((ws.filter (fun w => !(futureWords.contains w))).filter
        (fun w => !(word_list.contains w))).length
    words_in_list :=
      ((ws.filter (fun w => !(futureWords.contains w))).filter
        (fun w => word_list.contains w)).length
    words_not_seen := (ws.filter (fun w => (m.getWord w).isNone)).length
    last_seen_date := m.getExercise e
    future_words_count := futureWords.length }

/-- `UserModel::next_exercise`: filter to the exercises whose word list
contains the target word, then `min_by_key` on `score_exercise`. -/
def UserModel.next_exercise (m : UserModel) (now : Int)
    (exercises : List Exercise) (word_list : List Str) (target : Str) :
    Option Exercise :=
  minByKey (fun e => (m.score_exercise now e word_list).key)
    (exercises.filter (fun e => e.words.contains target))

/-- A dictionary entry as used by convert.rs: canonical simplified form and
numeric-tone pinyin. -/
structure DictEntry where
  simplified : Str
  pinyin : Str
deriving DecidableEq

/-- The external collaborators that `Segment::join_with` uses:
`haoxue_dict::DICTIONARY.lookup_entries`, `prettify_pinyin::prettify`,
Rust's `str::to_lowercase`, `char::is_alphabetic` and
`char::is_whitespace` (the latter three are Unicode-table functions and are
left abstract). -/
structure AlignEnv where
  lookup_entries : Str → List DictEntry
  prettify : Str → Str
  lower : Str → Str
  isAlphabetic : Char → Bool
  isSpace : Char → Bool

/-- The failure modes of `Segment::join_with`. -/
inductive AlignError where
  /-- `panic!("Segmentation failed at {} at {}")` in strict mode. -/
  | segmentation (compact remaining : Str)
  /-- `panic!("Failed to align match ... at {}")`: no candidate matched. -/
  | alignFailed (remaining : Str)
  /-- `new_pinyin.chars().next().unwrap()` called on an empty remainder
  (an `Option::unwrap` panic in the strict-mode boundary check). -/
  | unwrapEmptyRemainder
  /-- `chinese.strip_prefix(entry.simplified()).unwrap()` on an entry that
  is not a prefix of the remaining text. -/
  | unwrapStrip
  /-- Fuel exhausted: the Rust loop would run forever (possible only when a
  matching dictionary entry consumes no characters). -/
  | noProgress
deriving DecidableEq

/-- The apostrophe character, removed from the romanized input. -/
def apos : Char := Char.ofNat 39

/-- `str_tail` from convert.rs: drop the first character (identity on ""). -/
def strTail : Str → Str
  | [] => []
  | _ :: xs => xs

/-- `str_pop` from convert.rs. -/
def strPop : Str → Option (Char × Str)
  | [] => none
  | c :: cs => some (c, cs)

/-- Rust `str::strip_prefix`: `stripPre s p` removes the prefix `p` from
`s`, or fails. -/
def stripPre : Str → Str → Option Str
  | s, [] => some s
  | [], _ :: _ => none
  | c :: cs, p :: ps => if c = p then stripPre cs ps else none

/-- `strip_tone` from convert.rs: the concrete diacritic table; the entry at
index 4 of the matching row is the bare letter. -/
def strip_tone (c : Char) : Char :=
  let tones : List (List Char) :=
    [ ['ā', 'á', 'ǎ', 'à', 'a'],
      ['ē', 'é', 'ě', 'è', 'e'],
      ['ū', 'ú', 'ǔ', 'ù', 'u'],
      ['ī', 'í', 'ǐ', 'ì', 'i'],
      ['ō', 'ó', 'ǒ', 'ò', 'o'],
      ['ǖ', 'ǘ', 'ǚ', 'ǜ', 'ü'],
      ['Ā', 'Á', 'Ǎ', 'À', 'A'],
      ['Ē', 'É', 'Ě', 'È', 'E'],
      ['Ū', 'Ú', 'Ǔ', 'Ù', 'U'],
      ['Ī', 'Í', 'Ǐ', 'Ì', 'I'],
      ['Ō', 'Ó', 'Ǒ', 'Ò', 'O'],
      ['Ǖ', 'Ǘ', 'Ǚ', 'Ǜ', 'U'] ]
  match tones.find? (fun ts => ts.contains c) with
  | some ts => ts.getD 4 c
  | none => c

/-- `strip_prefix_no_tones` from convert.rs: character-by-character
tone-insensitive prefix removal.  Note the Rust loop also stops (returning
the empty remainder) when the *input* runs out before the prefix does. -/
def strip_prefix_no_tones : Str → Str → Option Str
  | [], _ => some []
  | s, [] => some s
  | c :: cs, p :: ps =>
    if strip_tone p = strip_tone c then strip_prefix_no_tones cs ps else none

/-- The no-candidate step of `Segment::join_with`: the unaligned character
`c` is appended to the last segment when that segment has an empty reading
(`segments.last_mut()`), and otherwise starts a new empty-reading segment. -/
def pushUnaligned (segments : List Segment) (c : Char) : List Segment :=
  match segments.getLast? with
  | some s =>
    if s.pinyin.isEmpty then
      segments.dropLast ++ [{ s with chinese := s.chinese ++ [c] }]
    else segments ++ [⟨[c], []⟩]
  | none => [⟨[c], []⟩]

/-- The candidate loop `for (nth, entry) in results.iter().rev().enumerate()`
of `Segment::join_with`.  On a reading match it performs the strict-mode
boundary check, then commits: the segment to push, the remaining Chinese
text after stripping the canonical form, and the remaining romanization. -/
def tryCands (env : AlignEnv) (strict lax : Bool) (longest nLongest : Nat)
    (chinese pinyin : Str) :
    List (Nat × DictEntry) → Except AlignError (Segment × Str × Str)
  | [] => .error (.alignFailed pinyin)
  | (nth, entry) :: rest =>
    let pretty := env.prettify entry.pinyin
    let prettyCompact := (env.lower pretty).filter (fun c => c != ' ')
    let stripped :=
      if lax ∧ 2 ≤ longest ∧ nLongest = 1 ∧ nth = 0 then
        strip_prefix_no_tones pinyin prettyCompact
      else stripPre pinyin prettyCompact
    match stripped with
    | some newPinyin =>
      let boundary : Except AlignError Unit :=
        if strict then
          match newPinyin with
          | [] => .error .unwrapEmptyRemainder
          | c :: _ =>
            if env.isAlphabetic c then .error (.segmentation prettyCompact pinyin)
            else .ok ()
        else .ok ()
      match boundary with
      | .error e => .error e
      | .ok _ =>
        match stripPre chinese entry.simplified with
        | none => .error .unwrapStrip
        | some newChinese => .ok (⟨entry.simplified, pretty⟩, newChinese, newPinyin)
    | none => tryCands env strict lax longest nLongest chinese pinyin rest

/-- The main loop of `Segment::join_with`, fuelled: one unit of fuel per
`'top` iteration.  The loop exits as soon as the Chinese cursor is empty. -/
def joinWithAux (env : AlignEnv) (strict lax : Bool) :
    Nat → List Segment → Str → Str → Except AlignError (List Segment)
  | _, segments, [], _ => .ok segments
  | 0, _, _ :: _, _ => .error .noProgress
  | fuel + 1, segments, c :: cs, pinyin0 =>
    let pinyin := pinyin0.dropWhile env.isSpace
    let results := env.lookup_entries (c :: cs)
    if results.isEmpty then
      joinWithAux env strict lax fuel (pushUnaligned segments c) cs (strTail pinyin)
    else
      let longest := ((results.map (fun e => e.simplified.length)).max?).getD 0
      let nLongest :=
        ((results.filter (fun e => e.simplified.length == longest)).map
          (fun e => e.pinyin)).dedup.length
      match tryCands env strict lax longest nLongest (c :: cs) pinyin
          results.reverse.enum with
      | .error e => .error e
      | .ok (seg, newChinese, newPinyin) =>
        joinWithAux env strict lax fuel (segments ++ [seg]) newChinese newPinyin

/-- `Segment::join_with`: lowercase the romanization and delete apostrophes,
delete the spaces of the Chinese text, then run the main loop.  The fuel
`length + 1` is enough for every run in which each committed dictionary
entry consumes at least one character. -/
def Segment.join_with (env : AlignEnv) (origChinese origPinyin : Str)
    (strict lax : Bool) : Except AlignError (List Segment) :=
  let pinyin := (env.lower origPinyin).filter (fun c => c != apos)
  let chinese := origChinese.filter (fun c => c != ' ')
  joinWithAux env strict lax (chinese.length + 1) [] chinese pinyin

/-- The failure modes of `Exercise::parse`: `None` (a malformed block) or a
panic propagated from `Segment::join_with`. -/
inductive ParseErr where
  | malformed
  | panicked (e : AlignError)
deriving DecidableEq

/-- Rust `str::trim` (ASCII whitespace suffices for the claims). -/
def trimStr (s : Str) : Str :=
  ((s.dropWhile Char.isWhitespace).reverse.dropWhile Char.isWhitespace).reverse

/-- Rust `str::split_once`: split at the first occurrence of `c`. -/
def splitOnceChar (c : Char) : Str → Option (Str × Str)
  | [] => none
  | x :: xs =>
    if x = c then some ([], xs)
    else
      match splitOnceChar c xs with
      | none => none
      | some (a, b) => some (x :: a, b)

/-- The `for _ in 0..3` header loop of `Exercise::parse`: split off a line
(`split_once('\n').unwrap_or((input, ""))`), split it at the first `':'`,
and record the trimmed value under its key; any other key aborts.  After the
loop all three fields must be present. -/
def parseHeader : Nat → Str → Option Str → Option Str → Option Str →
    Option (Str × Str × Str × Str)
  | 0, input, c, p, e =>
    match c, p, e with
    | some c, some p, some e => some (input, c, p, e)
    | _, _, _ => none
  | n + 1, input, c, p, e =>
    let lr := (splitOnceChar '\n' input).getD (input, [])
    match splitOnceChar ':' lr.1 with
    | none => none
    | some (key, value) =>
      if key = ("Chinese").toList then parseHeader n lr.2 (some (trimStr value)) p e
      else if key = ("Pinyin").toList then parseHeader n lr.2 c (some (trimStr value)) e
      else if key = ("English").toList then parseHeader n lr.2 c p (some (trimStr value))
      else none

/-- `Exercise::parse`. -/
def Exercise.parse (env : AlignEnv) (input : Str) (strict lax : Bool) :
    Except ParseErr (Exercise × Str) :=
  match parseHeader 3 (trimStr input) none none none with
  | none => .error .malformed
  | some (rest, c, p, e) =>
    match Segment.join_with env c p strict lax with
    | .error a => .error (.panicked a)
    | .ok segs => .ok (⟨segs, e⟩, rest)

/-- Concatenation of the segment texts of an alignment result. -/
def concatTexts (segs : List Segment) : Str :=
  (segs.map (fun s => s.chinese)).flatten

/-- No two adjacent segments both carry an empty reading. -/
def noTwoAdjacentUnaligned (segs : List Segment) : Prop :=
  List.Chain' (fun a b => a.pinyin ≠ [] ∨ b.pinyin ≠ []) segs

/-- A fixture environment whose dictionary knows no words at all. -/
def env0 : AlignEnv :=
  { lookup_entries := fun _ => []
    prettify := fun s => s
    lower := fun s => s
    isAlphabetic := fun c => c.isAlpha
    isSpace := fun c => c.isWhitespace }

/-- Fixture dictionary entry: the word "A" read "a". -/
def entryC5 : DictEntry := ⟨['A'], ['a']⟩

/-- A fixture environment whose dictionary knows exactly the word "A". -/
def envC5 : AlignEnv :=
  { lookup_entries := fun s => if s.head? = some 'A' then [entryC5] else []
    prettify := fun s => s
    lower := fun s => s
    isAlphabetic := fun c => c.isAlpha
    isSpace := fun c => c.isWhitespace }

/-- Fixture: a record in which the word "A" occurs in two non-adjacent
aligned segments. -/
def exC6 : Exercise := ⟨[⟨['A'], ['x']⟩, ⟨['B'], ['y']⟩, ⟨['A'], ['x']⟩], []⟩

/-- Fixture: a record with one aligned and one unaligned segment. -/
def exC7 : Exercise := ⟨[⟨['A'], ['a']⟩, ⟨['B'], []⟩], []⟩

/-- Fixture: a one-segment record for the word "A". -/
def exA : Exercise := ⟨[⟨['A'], ['a']⟩], []⟩

/-- Decidable equality for `Except` results (not provided by core). -/
def exceptDecEq {ε α : Type*} [DecidableEq ε] [DecidableEq α] :
    DecidableEq (Except ε α) := fun x y =>
  match x, y with
  | .ok a, .ok b =>
    if h : a = b then isTrue (by rw [h]) else isFalse (fun hc => h (by injection hc))
  | .error a, .error b =>
    if h : a = b then isTrue (by rw [h]) else isFalse (fun hc => h (by injection hc))
  | .ok _, .error _ => isFalse (fun hc => Except.noConfusion hc)
  | .error _, .ok _ => isFalse (fun hc => Except.noConfusion hc)

instance {ε α : Type*} [DecidableEq ε] [DecidableEq α] :
    DecidableEq (Except ε α) := exceptDecEq

/-- Selector used to state the key-order theorem for `Exercise::parse`: the
value carried by the line whose key is `k` (first such line). -/
def headerValue (k : Str) (lines : List (Str × Str)) : Str :=
  ((lines.find? (fun kv => kv.1 == k)).map (fun kv => kv.2)).getD []

/-! ### Generic facts about `minByKey` (Rust `Iterator::min_by_key`) -/

theorem minByKey_cons_none {α κ : Type*} [LinearOrder κ] {key : α → κ}
    {x : α} {xs : List α} (hm : minByKey key xs = none) :
    minByKey key (x :: xs) = some x := by
  simp [minByKey, hm]

theorem minByKey_cons_some {α κ : Type*} [LinearOrder κ] {key : α → κ}
    {x m : α} {xs : List α} (hm : minByKey key xs = some m) :
    minByKey key (x :: xs) = if key m < key x then some m else some x := by
  simp [minByKey, hm]

theorem minByKey_eq_none_iff {α κ : Type*} [LinearOrder κ] (key : α → κ)
    (l : List α) : minByKey key l = none ↔ l = [] := by
  cases l with
  | nil => simp [minByKey]
  | cons x xs =>
    cases hm : minByKey key xs with
    | none => rw [minByKey_cons_none hm]; simp
    | some m =>
      rw [minByKey_cons_some hm]
      constructor
      · intro h; split at h <;> simp_all
      · intro h; simp at h

theorem minByKey_mem {α κ : Type*} [LinearOrder κ] {key : α → κ} :
    ∀ {l : List α} {a : α}, minByKey key l = some a → a ∈ l := by
  intro l
  induction l with
  | nil => intro a h; simp [minByKey] at h
  | cons x xs ih =>
    intro a h
    cases hm : minByKey key xs with
    | none =>
      rw [minByKey_cons_none hm] at h
      injection h with h'
      exact h' ▸ List.mem_cons_self x xs
    | some m =>
      rw [minByKey_cons_some hm] at h
      by_cases hk : key m < key x
      · rw [if_pos hk] at h
        injection h with h'
        exact h' ▸ List.mem_cons_of_mem x (ih hm)
      · rw [if_neg hk] at h
        injection h with h'
        exact h' ▸ List.mem_cons_self x xs

theorem minByKey_le {α κ : Type*} [LinearOrder κ] {key : α → κ} :
    ∀ {l : List α} {a : α}, minByKey key l = some a → ∀ b ∈ l, key a ≤ key b := by
  intro l
  induction l with
  | nil => intro a h; simp [minByKey] at h
  | cons x xs ih =>
    intro a h b hb
    cases hm : minByKey key xs with
    | none =>
      rw [minByKey_cons_none hm] at h
      injection h with h'
      have hxs : xs = [] := (minByKey_eq_none_iff key xs).mp hm
      subst hxs
      simp only [List.mem_singleton] at hb
      subst hb
      exact h' ▸ le_rfl
    | some m =>
      rw [minByKey_cons_some hm] at h
      by_cases hk : key m < key x
      · rw [if_pos hk] at h
        cases h
        rcases List.mem_cons.mp hb with rfl | hb'
        · exact le_of_lt hk
        · exact ih hm b hb'
      · rw [if_neg hk] at h
        cases h
        rcases List.mem_cons.mp hb with rfl | hb'
        · exact le_rfl
        · exact le_trans (not_lt.mp hk) (ih hm b hb')

theorem minByKey_first {α κ : Type*} [LinearOrder κ] {key : α → κ} :
    ∀ {l : List α} {a : α}, minByKey key l = some a →
      ∃ i : Nat, l[i]? = some a ∧
        ∀ (j : Nat) (b : α), j < i → l[j]? = some b → key a < key b := by
  intro l
  induction l with
  | nil => intro a h; simp [minByKey] at h
  | cons x xs ih =>
    intro a h
    cases hm : minByKey key xs with
    | none =>
      rw [minByKey_cons_none hm] at h
      injection h with h'
      subst h'
      exact ⟨0, by simp, by omega⟩
    | some m =>
      rw [minByKey_cons_some hm] at h
      by_cases hk : key m < key x
      · rw [if_pos hk] at h
        cases h
        obtain ⟨i, hi, hlt⟩ := ih hm
        refine ⟨i + 1, by simpa using hi, ?_⟩
        intro j b hj hjb
        cases j with
        | zero =>
          rw [List.getElem?_cons_zero] at hjb
          injection hjb with hjb
          exact hjb ▸ hk
        | succ j' =>
          rw [List.getElem?_cons_succ] at hjb
          exact hlt j' b (by omega) hjb
      · rw [if_neg hk] at h
        cases h
        exact ⟨0, by simp, by omega⟩

/-! ### Claims about the memory model (C2, C9) -/

/-- Claim C2, corrected.  `success` before the due date adds exactly
`interval / 50` where the division is chrono's nanosecond-resolution
integer division (floor); this multiplies the interval by exactly 1.02
precisely when the interval is a whole multiple of 50 nanoseconds (last
conjunct).  `success` at or after the due date multiplies the interval by
exactly 5, `fail` resets it to exactly 5 seconds, and all three operations
set `dueAt = now + interval` for the new interval. -/
theorem claim_C2_growth (p : Proficiency) (a : Int) :
    ((p.success a).memory_strength =
      if a < p.target_date then p.memory_strength + Int.fdiv p.memory_strength 50
      else 5 * p.memory_strength)
    ∧ (p.success a).target_date = a + (p.success a).memory_strength
    ∧ (p.fail a).memory_strength = 5 * nsecPerSec
    ∧ (p.fail a).target_date = a + (p.fail a).memory_strength
    ∧ (∀ k : Int, p.memory_strength = 50 * k → a < p.target_date →
        100 * (p.success a).memory_strength = 102 * p.memory_strength) := by
  refine ⟨?_, rfl, rfl, rfl, ?_⟩
  · simp only [Proficiency.success]
    split
    · rfl
    · ring
  · intro k hk hlt
    simp only [Proficiency.success, if_pos hlt, hk,
      Int.mul_fdiv_cancel_left k (by norm_num : (50 : Int) ≠ 0)]
    ring

/-- Witness for `claim_C2_growth`: a concrete record with interval 100 ns
(divisible by 50) reviewed before its due date grows by exactly 2%. -/
theorem claim_C2_growth_witness :
    100 * (Proficiency.success ⟨10, 100⟩ 0).memory_strength = 102 * 100 :=
  (claim_C2_growth ⟨10, 100⟩ 0).2.2.2.2 2 rfl (by decide)

/-- Counterexample to claim C2 as stated: a record with interval 51 ns and
a future due date; `success` produces 52 ns, but an exact multiplication by
1.02 would require `100 * new = 102 * 51`. -/
theorem claim_C2_counterexample :
    (0 : Int) < (Proficiency.mk 10 51).target_date
    ∧ 100 * (Proficiency.success ⟨10, 51⟩ 0).memory_strength ≠ 102 * 51 := by
  decide

/-- Claim C9, corrected.  Every reachable record has a positive interval;
after `success` or `fail` at time `a` the due date equals `a` plus the new
interval; but initialization at time `t` sets `interval = 5 s` and
`dueAt = t` (not `t + interval`). -/
theorem claim_C9_invariant :
    (∀ p : Proficiency, ReachableProf p → 0 < p.memory_strength)
    ∧ (∀ (p : Proficiency) (a : Int),
        (p.success a).target_date = a + (p.success a).memory_strength
        ∧ (p.fail a).target_date = a + (p.fail a).memory_strength)
    ∧ (∀ (m : UserModel) (w : Str) (now : Int), m.getWord w = none →
        (m.with_proficiency w now).1 = ⟨now, 5 * nsecPerSec⟩) := by
  refine ⟨?_, fun p a => ⟨rfl, rfl⟩, ?_⟩
  · intro p h
    induction h with
    | init t => norm_num [nsecPerSec]
    | step_success a _ ih =>
      simp only [Proficiency.success]
      split
      · have h50 : (0 : Int) ≤ Int.fdiv _ 50 := Int.fdiv_nonneg (le_of_lt ih) (by norm_num)
        linarith
      · linarith
    | step_fail a _ ih => norm_num [Proficiency.fail, nsecPerSec]
  · intro m w now h
    simp [UserModel.with_proficiency, h]

/-- Witness for `claim_C9_invariant`: the record created on first encounter
at time 0 has a positive interval, and a fresh model initializes the word
"a" at time 2 to `{dueAt = 2, interval = 5 s}`. -/
theorem claim_C9_invariant_witness :
    0 < (Proficiency.mk 0 (5 * nsecPerSec)).memory_strength
    ∧ (UserModel.new.with_proficiency ['a'] 2).1 = ⟨2, 5 * nsecPerSec⟩ :=
  ⟨claim_C9_invariant.1 _ (ReachableProf.init 0),
    claim_C9_invariant.2.2 UserModel.new ['a'] 2 rfl⟩

/-- Counterexample to claim C9 as stated: immediately after initialization
(first encounter at time 0) the due date is 0, not 0 + interval. -/
theorem claim_C9_counterexample :
    (UserModel.new.with_proficiency ['a'] 0).1.target_date ≠
      0 + (UserModel.new.with_proficiency ['a'] 0).1.memory_strength := by
  decide

/-! ### Claim C1: `next_word` -/

/-- Claim C1, confirmed.  For any word list: (empty list) the call fails —
modelled as `none` for the `expect` panic; (non-empty list) the result is a
listed word whose `WordScore` — tier `SeenDue` with key `|dueAt − now|`,
then tier `Unseen` with key the list position, then tier `SeenFuture` with
key `dueAt − now` — is minimal under the derived lexicographic order;
(empty memory) the result is the first listed word.  The last conjunct
spells out the three-tier classification of each word. -/
theorem claim_C1_next_word (m : UserModel) (now : Int) (l : List Str) :
    (l = [] → m.next_word now l = none)
    ∧ (l ≠ [] → ∃ (i : Nat) (w : Str), l[i]? = some w
        ∧ m.next_word now l = some w
        ∧ ∀ (j : Nat) (u : Str), l[j]? = some u →
            (m.wordScore now i w).key ≤ (m.wordScore now j u).key)
    ∧ (m.seen_words = [] → ∀ (w : Str) (rest : List Str), l = w :: rest →
        m.next_word now l = some w)
    ∧ (∀ (i : Nat) (w : Str),
        (∃ p, m.getWord w = some p ∧ p.target_date ≤ now
          ∧ m.wordScore now i w = .seenDue |p.target_date - now|)
        ∨ (m.getWord w = none ∧ m.wordScore now i w = .unseen i)
        ∨ (∃ p, m.getWord w = some p ∧ now < p.target_date
          ∧ m.wordScore now i w = .seenFuture (p.target_date - now))) := by
  have main : l ≠ [] → ∃ (i : Nat) (w : Str), l[i]? = some w
      ∧ m.next_word now l = some w
      ∧ ∀ (j : Nat) (u : Str), l[j]? = some u →
          (m.wordScore now i w).key ≤ (m.wordScore now j u).key := by
    intro hl
    cases hmin : minByKey (fun p => (m.wordScore now p.1 p.2).key) l.enum with
    | none =>
      rw [minByKey_eq_none_iff] at hmin
      rw [List.enum_eq_nil] at hmin
      exact absurd hmin hl
    | some p =>
      obtain ⟨i, w⟩ := p
      have hmem := minByKey_mem hmin
      rw [List.mk_mem_enum_iff_getElem?] at hmem
      refine ⟨i, w, hmem, ?_, ?_⟩
      · simp [UserModel.next_word, hmin]
      · intro j u hj
        exact minByKey_le hmin (j, u) (List.mk_mem_enum_iff_getElem?.mpr hj)
  refine ⟨?_, main, ?_, ?_⟩
  · rintro rfl; rfl
  · intro hm w rest hl
    obtain ⟨i, w', hi, hres, hmin⟩ := main (by simp [hl])
    have hscore : ∀ (j : Nat) (u : Str), m.wordScore now j u = .unseen j := by
      intro j u
      simp [UserModel.wordScore, UserModel.getWord, hm]
    have h0 : l[0]? = some w := by simp [hl]
    have hle := hmin 0 w h0
    rw [hscore, hscore, WordScore.key, WordScore.key] at hle
    rw [Prod.Lex.le_iff] at hle
    have hi0 : i = 0 := by
      rcases hle with h | ⟨-, h⟩
      · omega
      · simpa using h
    subst hi0
    rw [h0] at hi
    injection hi with hi
    rw [hi]
    exact hres
  · intro i w
    cases hg : m.getWord w with
    | none =>
      refine Or.inr (Or.inl ⟨rfl, ?_⟩)
      simp [UserModel.wordScore, hg]
    | some p =>
      by_cases hd : p.target_date - now ≤ 0
      · have hle : p.target_date ≤ now := by omega
        have hsc : m.wordScore now i w = .seenDue |p.target_date - now| := by
          simp [UserModel.wordScore, hg]
          omega
        exact Or.inl ⟨p, rfl, hle, hsc⟩
      · have hle : now < p.target_date := by omega
        have hsc : m.wordScore now i w = .seenFuture (p.target_date - now) := by
          simp [UserModel.wordScore, hg]
          omega
        exact Or.inr (Or.inr ⟨p, rfl, hle, hsc⟩)

/-- Witness for `claim_C1_next_word`: on a fresh model the first listed
word is returned. -/
theorem claim_C1_next_word_witness :
    UserModel.new.next_word 0 [['a'], ['b']] = some ['a'] :=
  (claim_C1_next_word UserModel.new 0 [['a'], ['b']]).2.2.1 rfl ['a'] [['b']] rfl

/-- `List.contains` with the `DecidableEq`-derived `BEq` is membership
(Rust `Vec::contains`). -/
theorem contains_iff (l : List Str) (a : Str) :
    l.contains a = true ↔ a ∈ l := by
  simp [List.contains]

/-! ### Claim C3: `next_exercise` -/

/-- Claim C3, confirmed.  `next_exercise` returns `none` exactly when no
pool record's word sequence contains the target word; otherwise it returns
a record containing the target whose `score_exercise` value is minimal
under the derived lexicographic order, and among equally-scored records the
first one of the (order-preserving) filtered pool — hence the first in pool
order — wins. -/
theorem claim_C3_next_exercise (m : UserModel) (now : Int)
    (exercises : List Exercise) (word_list : List Str) (target : Str) :
    (m.next_exercise now exercises word_list target = none ↔
      ∀ e ∈ exercises, target ∉ e.words)
    ∧ (∀ e : Exercise, m.next_exercise now exercises word_list target = some e →
        e ∈ exercises ∧ target ∈ e.words
        ∧ (∀ e₂ ∈ exercises, target ∈ e₂.words →
            (m.score_exercise now e word_list).key ≤
              (m.score_exercise now e₂ word_list).key)
        ∧ ∃ i : Nat,
            (exercises.filter (fun x => x.words.contains target))[i]? = some e
            ∧ ∀ (j : Nat) (e₂ : Exercise), j < i →
                (exercises.filter (fun x => x.words.contains target))[j]? = some e₂ →
                (m.score_exercise now e word_list).key <
                  (m.score_exercise now e₂ word_list).key) := by
  constructor
  · rw [UserModel.next_exercise, minByKey_eq_none_iff, List.filter_eq_nil_iff]
    constructor
    · intro h e he hw
      exact absurd ((contains_iff _ _).mpr hw) (h e he)
    · intro h e he hc
      exact h e he ((contains_iff _ _).mp hc)
  · intro e h
    rw [UserModel.next_exercise] at h
    have hmem := minByKey_mem h
    rw [List.mem_filter] at hmem
    obtain ⟨hin, hcont⟩ := hmem
    have htgt : target ∈ e.words := (contains_iff _ _).mp hcont
    refine ⟨hin, htgt, ?_, minByKey_first h⟩
    intro e₂ he₂ hw₂
    exact minByKey_le h e₂ (List.mem_filter.mpr ⟨he₂, (contains_iff _ _).mpr hw₂⟩)

/-- Witness for `claim_C3_next_exercise`: a one-record pool containing the
target word returns that record, and the record is minimal. -/
theorem claim_C3_next_exercise_witness :
    exA ∈ [exA] ∧ ['A'] ∈ exA.words :=
  ⟨((claim_C3_next_exercise UserModel.new 0 [exA] [] ['A']).2 exA (by decide)).1,
    ((claim_C3_next_exercise UserModel.new 0 [exA] [] ['A']).2 exA (by decide)).2.1⟩

/-! ### The alignment loop: round-trip (C4) and run-merging (C10) -/

theorem stripPre_eq : ∀ {p s r : Str}, stripPre s p = some r → s = p ++ r := by
  intro p
  induction p with
  | nil =>
    intro s r h
    simp only [stripPre, Option.some.injEq] at h
    simp [h]
  | cons q ps ih =>
    intro s r h
    cases s with
    | nil => simp [stripPre] at h
    | cons c cs =>
      simp only [stripPre] at h
      split at h
      · rename_i hc
        subst hc
        simpa using ih h
      · exact absurd h (by simp)

theorem tryCands_ok {env : AlignEnv} {strict lax : Bool} {longest nLongest : Nat}
    {chinese pinyin : Str} :
    ∀ {cands : List (Nat × DictEntry)} {seg : Segment} {nc np : Str},
      tryCands env strict lax longest nLongest chinese pinyin cands =
        .ok (seg, nc, np) →
      ∃ nth entry, (nth, entry) ∈ cands
        ∧ seg = ⟨entry.simplified, env.prettify entry.pinyin⟩
        ∧ chinese = entry.simplified ++ nc := by
  intro cands
  induction cands with
  | nil => intro seg nc np h; simp [tryCands] at h
  | cons x rest ih =>
    intro seg nc np h
    obtain ⟨nth, entry⟩ := x
    simp only [tryCands] at h
    split at h
    · -- the candidate's compact reading matched
      split at h
      · exact absurd h (by simp)
      · split at h
        · exact absurd h (by simp)
        · rename_i newPinyin _ _ _ newChinese hstrip
          simp only [Except.ok.injEq, Prod.mk.injEq] at h
          obtain ⟨h1, h2, h3⟩ := h
          refine ⟨nth, entry, List.mem_cons_self _ _, h1.symm, ?_⟩
          rw [← h2]
          exact stripPre_eq hstrip
    · -- no match: continue with the remaining candidates
      obtain ⟨n', e', hmem, hseg, hch⟩ := ih h
      exact ⟨n', e', List.mem_cons_of_mem _ hmem, hseg, hch⟩

theorem concatTexts_append (a b : List Segment) :
    concatTexts (a ++ b) = concatTexts a ++ concatTexts b := by
  simp [concatTexts]

theorem pushUnaligned_eq_nil {segs : List Segment} (c : Char)
    (hl : segs.getLast? = none) : pushUnaligned segs c = [⟨[c], []⟩] := by
  simp [pushUnaligned, hl]

theorem pushUnaligned_eq_last {segs : List Segment} {s : Segment} (c : Char)
    (hl : segs.getLast? = some s) :
    pushUnaligned segs c =
      if s.pinyin.isEmpty then
        segs.dropLast ++ [{ s with chinese := s.chinese ++ [c] }]
      else segs ++ [⟨[c], []⟩] := by
  simp [pushUnaligned, hl]

theorem dropLast_append_of_getLast? {segs : List Segment} {s : Segment}
    (hl : segs.getLast? = some s) : segs.dropLast ++ [s] = segs := by
  have hne : segs ≠ [] := by
    intro h
    rw [h] at hl
    simp at hl
  have hs : segs.getLast hne = s := by
    have h2 := List.getLast?_eq_getLast segs hne
    rw [hl] at h2
    injection h2 with h2
    exact h2.symm
  rw [← hs]
  exact List.dropLast_append_getLast hne

theorem concatTexts_pushUnaligned (segs : List Segment) (c : Char) :
    concatTexts (pushUnaligned segs c) = concatTexts segs ++ [c] := by
  cases hl : segs.getLast? with
  | none =>
    rw [List.getLast?_eq_none_iff] at hl
    subst hl
    simp [pushUnaligned, concatTexts]
  | some s =>
    have hdrop := dropLast_append_of_getLast? hl
    rw [pushUnaligned_eq_last c hl]
    by_cases hpe : s.pinyin.isEmpty
    · rw [if_pos hpe]
      conv_rhs => rw [← hdrop]
      simp [concatTexts_append, concatTexts]
    · rw [if_neg hpe]
      simp [concatTexts_append, concatTexts]

theorem joinWithAux_concat (env : AlignEnv) (strict lax : Bool) :
    ∀ (fuel : Nat) (segs : List Segment) (ch py : Str) (out : List Segment),
      joinWithAux env strict lax fuel segs ch py = .ok out →
      concatTexts out = concatTexts segs ++ ch := by
  intro fuel
  induction fuel with
  | zero =>
    intro segs ch py out h
    cases ch with
    | nil =>
      simp only [joinWithAux] at h
      injection h with h
      simp [← h]
    | cons c cs => simp [joinWithAux] at h
  | succ n ih =>
    intro segs ch py out h
    cases ch with
    | nil =>
      simp only [joinWithAux] at h
      injection h with h
      simp [← h]
    | cons c cs =>
      simp only [joinWithAux] at h
      split at h
      · rw [ih _ _ _ _ h, concatTexts_pushUnaligned]
        simp
      · split at h
        · exact absurd h (by simp)
        · rename_i seg nc np htry
          obtain ⟨nth, entry, hmemc, hseg, hch⟩ := tryCands_ok htry
          rw [ih _ _ _ _ h, concatTexts_append, hch, hseg]
          simp [concatTexts]

/-- Claim C4, confirmed.  Whenever the alignment succeeds, the
concatenation of all segment texts is the Chinese input with its spaces
removed (under the stated assumption that the dictionary only returns
entries whose canonical form is a prefix of the queried text — the proof
in fact never needs it, because a successful commit itself strips the
canonical form off the front of the Chinese cursor). -/
theorem claim_C4_roundtrip (env : AlignEnv) (strict lax : Bool) (ch py : Str)
    (segs : List Segment)
    (hdict : ∀ s : Str, ∀ e ∈ env.lookup_entries s, ∃ t : Str, s = e.simplified ++ t)
    (h : Segment.join_with env ch py strict lax = .ok segs) :
    concatTexts segs = ch.filter (fun c => c != ' ') := by
  rw [Segment.join_with] at h
  have hc := joinWithAux_concat env strict lax _ _ _ _ _ h
  simpa [concatTexts] using hc

/-- Witness for `claim_C4_roundtrip`: two unknown characters merge into one
unaligned segment whose text is the whole input. -/
theorem claim_C4_roundtrip_witness :
    concatTexts [⟨['a', 'b'], []⟩] = (['a', 'b'] : Str).filter (fun c => c != ' ') :=
  claim_C4_roundtrip env0 true false ['a', 'b'] ['x', 'y'] [⟨['a', 'b'], []⟩]
    (fun s e he => absurd he (List.not_mem_nil e)) (by decide)

theorem chain_pushUnaligned {segs : List Segment}
    (hc : noTwoAdjacentUnaligned segs) (c : Char) :
    noTwoAdjacentUnaligned (pushUnaligned segs c) := by
  rw [noTwoAdjacentUnaligned] at hc ⊢
  cases hl : segs.getLast? with
  | none =>
    rw [List.getLast?_eq_none_iff] at hl
    subst hl
    simp [pushUnaligned]
  | some s =>
    have hdrop := dropLast_append_of_getLast? hl
    rw [pushUnaligned_eq_last c hl]
    by_cases hpe : s.pinyin.isEmpty
    · rw [if_pos hpe]
      rw [← hdrop] at hc
      rw [List.chain'_append] at hc ⊢
      refine ⟨hc.1, List.chain'_singleton _, ?_⟩
      intro x hx y hy
      simp only [List.head?_cons, Option.mem_def, Option.some.injEq] at hy
      have hr := hc.2.2 x hx s (by simp)
      subst hy
      rcases hr with hr | hr
      · exact Or.inl hr
      · exact absurd hr (by simpa using hpe)
    · rw [if_neg hpe]
      rw [List.chain'_append]
      refine ⟨hc, List.chain'_singleton _, ?_⟩
      intro x hx y hy
      rw [hl] at hx
      simp only [Option.mem_def, Option.some.injEq] at hx
      simp only [List.head?_cons, Option.mem_def, Option.some.injEq] at hy
      subst hx
      exact Or.inl (by simpa using hpe)

theorem chain_append_seg {segs : List Segment} {seg : Segment}
    (hc : noTwoAdjacentUnaligned segs) (hp : seg.pinyin ≠ []) :
    noTwoAdjacentUnaligned (segs ++ [seg]) := by
  rw [noTwoAdjacentUnaligned] at hc ⊢
  rw [List.chain'_append]
  refine ⟨hc, List.chain'_singleton _, ?_⟩
  intro x _ y hy
  simp only [List.head?_cons, Option.mem_def, Option.some.injEq] at hy
  subst hy
  exact Or.inr hp

theorem joinWithAux_chain (env : AlignEnv) (strict lax : Bool)
    (hne : ∀ s : Str, ∀ e ∈ env.lookup_entries s, env.prettify e.pinyin ≠ []) :
    ∀ (fuel : Nat) (segs : List Segment) (ch py : Str) (out : List Segment),
      noTwoAdjacentUnaligned segs →
      joinWithAux env strict lax fuel segs ch py = .ok out →
      noTwoAdjacentUnaligned out := by
  intro fuel
  induction fuel with
  | zero =>
    intro segs ch py out hcs h
    cases ch with
    | nil =>
      simp only [joinWithAux] at h
      injection h with h
      exact h ▸ hcs
    | cons c cs => simp [joinWithAux] at h
  | succ n ih =>
    intro segs ch py out hcs h
    cases ch with
    | nil =>
      simp only [joinWithAux] at h
      injection h with h
      exact h ▸ hcs
    | cons c cs =>
      simp only [joinWithAux] at h
      split at h
      · exact ih _ _ _ _ (chain_pushUnaligned hcs c) h
      · split at h
        · exact absurd h (by simp)
        · rename_i seg nc np htry
          obtain ⟨nth, entry, hmemc, hseg, -⟩ := tryCands_ok htry
          have hentry : entry ∈ env.lookup_entries (c :: cs) := by
            rw [List.mk_mem_enum_iff_getElem?] at hmemc
            exact List.mem_reverse.mp (List.getElem?_mem hmemc)
          have hpseg : seg.pinyin ≠ [] := by
            rw [hseg]
            exact hne (c :: cs) entry hentry
          exact ih _ _ _ _ (chain_append_seg hcs hpseg) h

/-- Claim C10, confirmed.  On a dictionary whose entries all render to a
non-empty reading, a successful alignment never contains two adjacent
segments that both have an empty reading: unaligned characters merge into
the previous segment when (and only when) that segment is itself
unaligned. -/
theorem claim_C10_no_adjacent_unaligned (env : AlignEnv) (strict lax : Bool)
    (ch py : Str) (segs : List Segment)
    (hne : ∀ s : Str, ∀ e ∈ env.lookup_entries s, env.prettify e.pinyin ≠ [])
    (h : Segment.join_with env ch py strict lax = .ok segs) :
    noTwoAdjacentUnaligned segs := by
  rw [Segment.join_with] at h
  exact joinWithAux_chain env strict lax hne _ _ _ _ _ (by simp [noTwoAdjacentUnaligned]) h

/-- Witness for `claim_C10_no_adjacent_unaligned`. -/
theorem claim_C10_no_adjacent_unaligned_witness :
    noTwoAdjacentUnaligned [⟨['a', 'b'], []⟩] :=
  claim_C10_no_adjacent_unaligned env0 true false ['a', 'b'] ['x', 'y']
    [⟨['a', 'b'], []⟩] (fun s e he => absurd he (List.not_mem_nil e)) (by decide)

/-! ### Claim C5: the strict-mode boundary check -/

/-- Claim C5: the code at the failing input.  In strict mode, when the
matched reading consumes the entire remaining romanization (dictionary
"A"→"a", input "A"/"a"), the code does not commit: it evaluates
`new_pinyin.chars().next().unwrap()` on the empty remainder and panics
(first conjunct), even though the same match commits cleanly when the
strict check is skipped (second conjunct). -/
theorem claim_C5_empty_remainder_panics :
    Segment.join_with envC5 ['A'] ['a'] true false = .error .unwrapEmptyRemainder
    ∧ Segment.join_with envC5 ['A'] ['a'] false false = .ok [⟨['A'], ['a']⟩] := by
  constructor
  · decide
  · decide

/-! ### Claim C6: `Exercise::words` -/

theorem dedupConsAux_sublist {α : Type*} [DecidableEq α] :
    ∀ (l : List α) (prev : α), (dedupConsAux prev l).Sublist l := by
  intro l
  induction l with
  | nil => intro prev; simp [dedupConsAux]
  | cons y ys ih =>
    intro prev
    rw [dedupConsAux]
    split
    · exact (ih prev).cons y
    · exact (ih y).cons₂ y

theorem dedupCons_sublist {α : Type*} [DecidableEq α] (l : List α) :
    (dedupCons l).Sublist l := by
  cases l with
  | nil => simp [dedupCons]
  | cons x xs => exact (dedupConsAux_sublist xs x).cons₂ x

theorem mem_dedupConsAux {α : Type*} [DecidableEq α] :
    ∀ (l : List α) (prev a : α),
      (a ∈ dedupConsAux prev l ∨ a = prev) ↔ (a ∈ l ∨ a = prev) := by
  intro l
  induction l with
  | nil => intro prev a; simp [dedupConsAux]
  | cons y ys ih =>
    intro prev a
    rw [dedupConsAux]
    split
    · rename_i hpy
      subst hpy
      rw [ih prev a]
      simp only [List.mem_cons]
      tauto
    · simp only [List.mem_cons]
      have h := ih y a
      tauto

theorem mem_dedupCons {α : Type*} [DecidableEq α] (l : List α) (a : α) :
    a ∈ dedupCons l ↔ a ∈ l := by
  cases l with
  | nil => simp [dedupCons]
  | cons x xs =>
    rw [dedupCons, List.mem_cons, List.mem_cons]
    have h := mem_dedupConsAux xs x a
    tauto

theorem chain_dedupConsAux {α : Type*} [DecidableEq α] :
    ∀ (l : List α) (prev : α),
      List.Chain' (fun a b => a ≠ b) (prev :: dedupConsAux prev l) := by
  intro l
  induction l with
  | nil => intro prev; simp [dedupConsAux]
  | cons y ys ih =>
    intro prev
    rw [dedupConsAux]
    split
    · exact ih prev
    · rename_i hpy
      rw [List.chain'_cons]
      exact ⟨hpy, ih y⟩

theorem chain_dedupCons {α : Type*} [DecidableEq α] (l : List α) :
    List.Chain' (fun a b => a ≠ b) (dedupCons l) := by
  cases l with
  | nil => simp [dedupCons]
  | cons x xs => exact chain_dedupConsAux xs x

/-- Claim C6, corrected.  `words()` is the `Vec::dedup` of the texts of the
non-empty-reading segments: an order-preserving *sublist* of those texts
with the same members, in which no two *adjacent* entries are equal — but
non-adjacent repeats survive (see the counterexample). -/
theorem claim_C6_words (e : Exercise) :
    (e.words.Sublist
      ((e.segments.filter (fun s => !s.pinyin.isEmpty)).map (fun s => s.chinese)))
    ∧ (∀ w : Str, w ∈ e.words ↔
        w ∈ (e.segments.filter (fun s => !s.pinyin.isEmpty)).map (fun s => s.chinese))
    ∧ List.Chain' (fun a b => a ≠ b) e.words :=
  ⟨dedupCons_sublist _, fun w => mem_dedupCons _ w, chain_dedupCons _⟩

/-- Counterexample to claim C6 as stated: with the word "A" in segments 1
and 3 (reading "x") and "B" in between, `words()` is `[A, B, A]` — the
duplicate in non-adjacent segments is *not* removed. -/
theorem claim_C6_counterexample :
    Exercise.words exC6 = [['A'], ['B'], ['A']]
    ∧ ¬ (Exercise.words exC6).Nodup := by
  constructor
  · decide
  · decide

/-! ### Claim C7: `Exercise::pinyin` -/

theorem joinSpace_length :
    ∀ l : List Str, l ≠ [] →
      (joinSpace l).length = ((l.map (fun s => s.length)).sum) + (l.length - 1) := by
  intro l
  induction l with
  | nil => intro h; exact absurd rfl h
  | cons x xs ih =>
    intro _
    cases xs with
    | nil => simp [joinSpace]
    | cons y ys =>
      rw [joinSpace]
      have h := ih (by simp)
      simp only [List.length_append, List.length_cons, h, List.map_cons, List.sum_cons]
      omega

/-- Claim C7, corrected.  `pinyin()` joins the readings of *all* segments
with single spaces — empty readings are *not* skipped — so for a non-empty
record its length is the sum of the reading lengths plus one separator per
segment boundary, an empty reading contributing an extra space. -/
theorem claim_C7_fullReading (e : Exercise) (h : e.segments ≠ []) :
    Exercise.pinyin e = joinSpace (e.segments.map (fun s => s.pinyin))
    ∧ (Exercise.pinyin e).length =
        ((e.segments.map (fun s => s.pinyin.length)).sum) + (e.segments.length - 1) := by
  refine ⟨rfl, ?_⟩
  rw [Exercise.pinyin, joinSpace_length _ (by simpa using h), List.map_map,
    List.length_map]
  rfl

/-- Witness for `claim_C7_fullReading` at the two-segment fixture: the
reading is "a " (length 2 = 1 + 1 separator), with a trailing space for the
unaligned segment. -/
theorem claim_C7_fullReading_witness :
    Exercise.pinyin exC7 = joinSpace (exC7.segments.map (fun s => s.pinyin))
    ∧ (Exercise.pinyin exC7).length =
        ((exC7.segments.map (fun s => s.pinyin.length)).sum) + (exC7.segments.length - 1) :=
  claim_C7_fullReading exC7 (by decide)

/-- Counterexample to claim C7 as stated: on a record with segments
`[("A","a"), ("B","")]` the code yields `"a "` (trailing space), not the
empty-skipping join `"a"`. -/
theorem claim_C7_counterexample :
    Exercise.pinyin exC7 ≠
      joinSpace ((exC7.segments.map (fun s => s.pinyin)).filter
        (fun r => !r.isEmpty)) := by
  decide

/-! ### Claim C8: `Exercise::parse` key handling -/

theorem splitOnceChar_append {c : Char} :
    ∀ (a b : Str), c ∉ a → splitOnceChar c (a ++ c :: b) = some (a, b) := by
  intro a
  induction a with
  | nil => intro b _; simp [splitOnceChar]
  | cons x xs ih =>
    intro b hmem
    have hxc : ¬x = c := fun h => hmem (h ▸ List.mem_cons_self x xs)
    have hcxs : c ∉ xs := fun h => hmem (List.mem_cons_of_mem x h)
    simp only [List.cons_append, splitOnceChar, if_neg hxc, List.append_eq,
      ih b hcxs]

theorem splitOnceChar_eq_none {c : Char} :
    ∀ l : Str, c ∉ l → splitOnceChar c l = none := by
  intro l
  induction l with
  | nil => intro _; rfl
  | cons x xs ih =>
    intro hmem
    have hxc : ¬x = c := fun h => hmem (h ▸ List.mem_cons_self x xs)
    have hcxs : c ∉ xs := fun h => hmem (List.mem_cons_of_mem x h)
    simp only [splitOnceChar, if_neg hxc, ih hcxs]

/-- One iteration of the `for _ in 0..3` loop of `Exercise::parse` on a
line `key:value` terminated by a newline: the trimmed value is recorded
under its key, and an unrecognized key aborts. -/
theorem parseHeader_step (k v rest : Str) (c p e : Option Str) (n : Nat)
    (hkn : ('\n' : Char) ∉ k) (hkc : (':' : Char) ∉ k)
    (hv : ('\n' : Char) ∉ v) :
    parseHeader (n + 1) (k ++ ':' :: v ++ '\n' :: rest) c p e =
      if k = ("Chinese").toList then parseHeader n rest (some (trimStr v)) p e
      else if k = ("Pinyin").toList then parseHeader n rest c (some (trimStr v)) e
      else if k = ("English").toList then parseHeader n rest c p (some (trimStr v))
      else none := by
  have h1 : splitOnceChar '\n' (k ++ ':' :: v ++ '\n' :: rest) =
      some (k ++ ':' :: v, rest) := by
    have hsh : k ++ ':' :: v ++ '\n' :: rest = (k ++ ':' :: v) ++ '\n' :: rest := by
      simp
    rw [hsh]
    apply splitOnceChar_append
    intro hmem
    rcases List.mem_append.mp hmem with hm | hm
    · exact hkn hm
    · rcases List.mem_cons.mp hm with hm2 | hm2
      · exact absurd hm2 (by decide)
      · exact hv hm2
  have h2 : splitOnceChar ':' (k ++ ':' :: v) = some (k, v) :=
    splitOnceChar_append _ _ hkc
  simp only [parseHeader, h1, Option.getD_some, h2]

theorem parseHeader_stepC (v rest : Str) (c p e : Option Str) (n : Nat)
    (hv : ('\n' : Char) ∉ v) :
    parseHeader (n + 1) (("Chinese").toList ++ ':' :: v ++ '\n' :: rest) c p e =
      parseHeader n rest (some (trimStr v)) p e := by
  rw [parseHeader_step _ _ _ _ _ _ _ (by decide) (by decide) hv, if_pos rfl]

theorem parseHeader_stepP (v rest : Str) (c p e : Option Str) (n : Nat)
    (hv : ('\n' : Char) ∉ v) :
    parseHeader (n + 1) (("Pinyin").toList ++ ':' :: v ++ '\n' :: rest) c p e =
      parseHeader n rest c (some (trimStr v)) e := by
  rw [parseHeader_step _ _ _ _ _ _ _ (by decide) (by decide) hv,
    if_neg (by decide), if_pos rfl]

theorem parseHeader_stepE (v rest : Str) (c p e : Option Str) (n : Nat)
    (hv : ('\n' : Char) ∉ v) :
    parseHeader (n + 1) (("English").toList ++ ':' :: v ++ '\n' :: rest) c p e =
      parseHeader n rest c p (some (trimStr v)) := by
  rw [parseHeader_step _ _ _ _ _ _ _ (by decide) (by decide) hv,
    if_neg (by decide), if_neg (by decide), if_pos rfl]

/-- Claim C8, corrected — the universal key-order behaviour of the header
loop, stated over every transcript block of three `key:value` lines with
newline-free values.  Clause 1: when the keys are `Chinese`, `Pinyin` and
`English` each occurring once, in *any* of the six orders, the header loop
succeeds and assigns each trimmed value to its key (`headerValue`).
Clause 2: a repeated key among the three (hence a missing one) aborts.
Clause 3: an unrecognized key aborts at its line.  Clause 4: a line with no
colon aborts at its line.  Clause 5: `Exercise::parse` reports a malformed
record — returning no result, the caller reporting the remainder — exactly
when this header loop fails. -/
theorem claim_C8_key_order :
    (∀ k1 k2 k3 v1 v2 v3 rest : Str,
      ('\n' : Char) ∉ v1 → ('\n' : Char) ∉ v2 → ('\n' : Char) ∉ v3 →
      (k1 = ("Chinese").toList ∨ k1 = ("Pinyin").toList ∨ k1 = ("English").toList) →
      (k2 = ("Chinese").toList ∨ k2 = ("Pinyin").toList ∨ k2 = ("English").toList) →
      (k3 = ("Chinese").toList ∨ k3 = ("Pinyin").toList ∨ k3 = ("English").toList) →
      k1 ≠ k2 → k1 ≠ k3 → k2 ≠ k3 →
      parseHeader 3
        (k1 ++ ':' :: v1 ++ '\n' :: (k2 ++ ':' :: v2 ++ '\n' :: (k3 ++ ':' :: v3 ++ '\n' :: rest)))
        none none none =
        some (rest,
          trimStr (headerValue (("Chinese").toList) [(k1, v1), (k2, v2), (k3, v3)]),
          trimStr (headerValue (("Pinyin").toList) [(k1, v1), (k2, v2), (k3, v3)]),
          trimStr (headerValue (("English").toList) [(k1, v1), (k2, v2), (k3, v3)])))
    ∧ (∀ k1 k2 k3 v1 v2 v3 rest : Str,
      ('\n' : Char) ∉ v1 → ('\n' : Char) ∉ v2 → ('\n' : Char) ∉ v3 →
      (k1 = ("Chinese").toList ∨ k1 = ("Pinyin").toList ∨ k1 = ("English").toList) →
      (k2 = ("Chinese").toList ∨ k2 = ("Pinyin").toList ∨ k2 = ("English").toList) →
      (k3 = ("Chinese").toList ∨ k3 = ("Pinyin").toList ∨ k3 = ("English").toList) →
      (k1 = k2 ∨ k1 = k3 ∨ k2 = k3) →
      parseHeader 3
        (k1 ++ ':' :: v1 ++ '\n' :: (k2 ++ ':' :: v2 ++ '\n' :: (k3 ++ ':' :: v3 ++ '\n' :: rest)))
        none none none = none)
    ∧ (∀ (k v rest : Str) (c p e : Option Str) (n : Nat),
      ('\n' : Char) ∉ k → (':' : Char) ∉ k → ('\n' : Char) ∉ v →
      k ≠ ("Chinese").toList → k ≠ ("Pinyin").toList → k ≠ ("English").toList →
      parseHeader (n + 1) (k ++ ':' :: v ++ '\n' :: rest) c p e = none)
    ∧ (∀ (l rest : Str) (c p e : Option Str) (n : Nat),
      (':' : Char) ∉ l → ('\n' : Char) ∉ l →
      parseHeader (n + 1) (l ++ '\n' :: rest) c p e = none)
    ∧ (∀ (env : AlignEnv) (input : Str) (strict lax : Bool),
      Exercise.parse env input strict lax = .error .malformed ↔
        parseHeader 3 (trimStr input) none none none = none) := by
  refine ⟨?_, ?_, ?_, ?_, ?_⟩
  · intro k1 k2 k3 v1 v2 v3 rest hv1 hv2 hv3 hk1 hk2 hk3 h12 h13 h23
    rcases hk1 with rfl | rfl | rfl <;> rcases hk2 with rfl | rfl | rfl <;>
      rcases hk3 with rfl | rfl | rfl <;>
        first
          | exact absurd rfl h12
          | exact absurd rfl h13
          | exact absurd rfl h23
          | ((repeat
              (first
                | rw [parseHeader_stepC _ _ _ _ _ _ hv1]
                | rw [parseHeader_stepC _ _ _ _ _ _ hv2]
                | rw [parseHeader_stepC _ _ _ _ _ _ hv3]
                | rw [parseHeader_stepP _ _ _ _ _ _ hv1]
                | rw [parseHeader_stepP _ _ _ _ _ _ hv2]
                | rw [parseHeader_stepP _ _ _ _ _ _ hv3]
                | rw [parseHeader_stepE _ _ _ _ _ _ hv1]
                | rw [parseHeader_stepE _ _ _ _ _ _ hv2]
                | rw [parseHeader_stepE _ _ _ _ _ _ hv3]));
             rfl)
  · intro k1 k2 k3 v1 v2 v3 rest hv1 hv2 hv3 hk1 hk2 hk3 hbad
    rcases hk1 with rfl | rfl | rfl <;> rcases hk2 with rfl | rfl | rfl <;>
      rcases hk3 with rfl | rfl | rfl <;>
        first
          | (rcases hbad with h | h | h <;> exact absurd h (by decide))
          | ((repeat
              (first
                | rw [parseHeader_stepC _ _ _ _ _ _ hv1]
                | rw [parseHeader_stepC _ _ _ _ _ _ hv2]
                | rw [parseHeader_stepC _ _ _ _ _ _ hv3]
                | rw [parseHeader_stepP _ _ _ _ _ _ hv1]
                | rw [parseHeader_stepP _ _ _ _ _ _ hv2]
                | rw [parseHeader_stepP _ _ _ _ _ _ hv3]
                | rw [parseHeader_stepE _ _ _ _ _ _ hv1]
                | rw [parseHeader_stepE _ _ _ _ _ _ hv2]
                | rw [parseHeader_stepE _ _ _ _ _ _ hv3]));
             rfl)
  · intro k v rest c p e n hkn hkc hv h1 h2 h3
    rw [parseHeader_step _ _ _ _ _ _ _ hkn hkc hv, if_neg h1, if_neg h2, if_neg h3]
  · intro l rest c p e n hlc hln
    have h1 : splitOnceChar '\n' (l ++ '\n' :: rest) = some (l, rest) :=
      splitOnceChar_append _ _ hln
    simp only [parseHeader, h1, Option.getD_some, splitOnceChar_eq_none l hlc]
  · intro env input strict lax
    cases h : parseHeader 3 (trimStr input) none none none with
    | none => simp [Exercise.parse, h]
    | some x =>
      obtain ⟨rest, cc, pp, ee⟩ := x
      cases hj : Segment.join_with env cc pp strict lax with
      | error a => simp [Exercise.parse, h, hj]
      | ok segs => simp [Exercise.parse, h, hj]

/-- Witness for `claim_C8_key_order`, exercising all five clauses: the
out-of-order block `English: hi / Pinyin: a / Chinese: A` succeeds with the
values routed to their keys; a repeated-key block, an unknown-key block and
a colon-free line each abort; and an unknown-key block makes
`Exercise::parse` report `malformed`. -/
theorem claim_C8_key_order_witness :
    (parseHeader 3
      (("English").toList ++ ':' :: (" hi").toList ++ '\n' ::
        (("Pinyin").toList ++ ':' :: ("a").toList ++ '\n' ::
          (("Chinese").toList ++ ':' :: ("A").toList ++ '\n' :: ("r").toList)))
      none none none =
      some (("r").toList,
        trimStr (headerValue (("Chinese").toList)
          [(("English").toList, (" hi").toList), (("Pinyin").toList, ("a").toList),
            (("Chinese").toList, ("A").toList)]),
        trimStr (headerValue (("Pinyin").toList)
          [(("English").toList, (" hi").toList), (("Pinyin").toList, ("a").toList),
            (("Chinese").toList, ("A").toList)]),
        trimStr (headerValue (("English").toList)
          [(("English").toList, (" hi").toList), (("Pinyin").toList, ("a").toList),
            (("Chinese").toList, ("A").toList)])))
    ∧ (parseHeader 3
      (("Chinese").toList ++ ':' :: ("A").toList ++ '\n' ::
        (("Chinese").toList ++ ':' :: ("B").toList ++ '\n' ::
          (("English").toList ++ ':' :: ("hi").toList ++ '\n' :: [])))
      none none none = none)
    ∧ (parseHeader 3
      (("Chinois").toList ++ ':' :: ("A").toList ++ '\n' :: ("x").toList)
      none none none = none)
    ∧ (parseHeader 3 (("junk").toList ++ '\n' :: ("x").toList)
      none none none = none)
    ∧ Exercise.parse env0 ("Chinois: A\nPinyin: a\nEnglish: hi").toList true false
      = .error .malformed :=
  ⟨claim_C8_key_order.1 _ _ _ _ _ _ _ (by decide) (by decide) (by decide)
      (Or.inr (Or.inr rfl)) (Or.inr (Or.inl rfl)) (Or.inl rfl)
      (by decide) (by decide) (by decide),
    claim_C8_key_order.2.1 _ _ _ _ _ _ _ (by decide) (by decide) (by decide)
      (Or.inl rfl) (Or.inl rfl) (Or.inr (Or.inr rfl)) (Or.inl rfl),
    claim_C8_key_order.2.2.1 _ _ _ none none none 2
      (by decide) (by decide) (by decide) (by decide) (by decide) (by decide),
    claim_C8_key_order.2.2.2.1 _ _ none none none 2 (by decide) (by decide),
    (claim_C8_key_order.2.2.2.2 env0
      (("Chinois: A\nPinyin: a\nEnglish: hi").toList) true false).mpr (by decide)⟩

/-- Counterexample to claim C8 as stated: the out-of-order block
`Chinese / English / Pinyin` parses *successfully* instead of aborting as
malformed. -/
theorem claim_C8_counterexample :
    Exercise.parse env0 ("Chinese: A\nEnglish: hi\nPinyin: a").toList true false
      ≠ .error .malformed := by
  decide

end Erudify
